import Mathlib

/-! Osmosis: lockup CLI, gamm constants and CLI parsing helpers.

A shallow embedding of

* `x/gamm/types/constants.go` (the fixed-point constants),
* `x/lockup/client/cli/tx.go` (the transaction commands),
* `x/lockup/client/cli/query.go` (`GetCmdOutputLocksJson`),
* `osmoutils/cli_helpers.go` (`ParseSdkIntFromString`),

together with the lock state machine of the specification (section 4.2), whose
keeper is not among these files.

Go strings are modelled as lists of Unicode code points (`List Char`), i.e. as
well-formed UTF-8 text; `int` is the 64-bit `int` of the supported platforms.
-/

namespace Osmosis

/-! ## cosmos-sdk fixed-point decimals (`sdk.Dec`), as used by `constants.go` -/

namespace sdk

/-- Number of decimal places of an `sdk.Dec` (`Precision`). -/
def Precision : Nat := 18

/-- The scaling unit `10^Precision` (`precisionReuse`). -/
def precisionReuse : Int := 10 ^ Precision

/-- Half of the scaling unit (`fivePrecision`). -/
def fivePrecision : Int := precisionReuse / 2

/-- Bit budget of an `sdk.Int` (`maxBitLen`). -/
def maxBitLen : Nat := 256

/-- Bit budget of an `sdk.Dec` (`maxDecBitLen = maxBitLen + decimalTruncateBits`). -/
def maxDecBitLen : Nat := maxBitLen + 59

/-- Number of binary digits of `n`, halving at most `fuel` times. -/
def bitLenAux : Nat → Nat → Nat
  | 0, _ => 0
  | fuel + 1, n => if n = 0 then 0 else bitLenAux fuel (n / 2) + 1

/-- The length in bits of the absolute value, as `big.Int.BitLen`. -/
def BitLen (x : Int) : Nat := bitLenAux x.natAbs x.natAbs

/-- A decimal is its underlying big integer, the value times `10^18`. -/
abbrev Dec := Int

/-- The decimal of an integer: `NewDec(i) = i * 10^18`. -/
def NewDec (i : Int) : Dec := i * precisionReuse

/-- The decimal one (`OneDec`). -/
def OneDec : Dec := precisionReuse

/-- Division of a non-negative big integer by `10^18` with banker's rounding. -/
def chopPrecisionAndRoundNonneg (d : Nat) : Nat :=
  let quo := d / precisionReuse.natAbs
  let rem := d % precisionReuse.natAbs
  if rem = 0 then quo
  else if rem < fivePrecision.natAbs then quo
  else if rem > fivePrecision.natAbs then quo + 1
  else if quo % 2 = 0 then quo else quo + 1

/-- Removes the sign, rounds, and puts the sign back (`chopPrecisionAndRound`). -/
def chopPrecisionAndRound (d : Int) : Int :=
  if d < 0 then - (chopPrecisionAndRoundNonneg d.natAbs : Int)
  else (chopPrecisionAndRoundNonneg d.natAbs : Int)

/-- Multiplication `Dec.Mul`; `none` is the overflow panic. -/
def Mul (d d2 : Dec) : Option Dec :=
  let chopped := chopPrecisionAndRound (d * d2)
  if BitLen chopped > maxDecBitLen then none else some chopped

/-- The loop of `Dec.Power`: `for i := power; i > 1; \x7b ... \x7d`, on the
pair `(d, tmp)`. The counter is halved at each turn, so 64 turns exhaust a
`uint64`. -/
def powerLoop : Nat → Nat → Dec → Dec → Option (Dec × Dec)
  | 0, _, d, tmp => some (d, tmp)
  | fuel + 1, i, d, tmp =>
    if i > 1 then
      (if i % 2 ≠ 0 then Mul tmp d else some tmp).bind fun tmp1 =>
        (Mul d d).bind fun d1 => powerLoop fuel (i / 2) d1 tmp1
    else some (d, tmp)

/-- The power `Dec.Power(power)` by repeated squaring. -/
def Power (d : Dec) (power : Nat) : Option Dec :=
  if power = 0 then some OneDec
  else (powerLoop 64 power d OneDec).bind fun r => Mul r.1 r.2

/-- The integer part `Dec.TruncateInt`: quotient by `10^18` towards zero; `none`
is the out-of-bound panic of `NewIntFromBigInt`. -/
def TruncateInt (d : Dec) : Option Int :=
  let q := Int.tdiv d precisionReuse
  if BitLen q > maxBitLen then none else some q

end sdk

/-! ## `x/gamm/types/constants.go` -/

namespace gamm

def OneShareExponent : Nat := 18

def SigFigsExponent : Nat := 8

/-- The variable `SpotPriceSigFigs = sdk.NewDec(10).Power(SigFigsExponent).TruncateInt()`. -/
def SpotPriceSigFigs : Option Int :=
  (sdk.Power (sdk.NewDec 10) SigFigsExponent).bind sdk.TruncateInt

/-- The variable `StableswapMaxScaledAmtPerAsset = sdk.NewDec(10).Power(34).TruncateInt()`. -/
def StableswapMaxScaledAmtPerAsset : Option Int :=
  (sdk.Power (sdk.NewDec 10) 34).bind sdk.TruncateInt

end gamm

/-! ## `x/lockup/client/cli/tx.go` -/

namespace lockup

/-- A coin: a denomination and an arbitrary-precision amount (`sdk.Coin`). -/
structure Coin where
  Denom : List Char
  Amount : Int
deriving DecidableEq, Repr

/-- The transaction message types of the lockup module (`x/lockup/types`). -/
inductive MsgKind where
  | MsgLockTokens
  | MsgBeginUnlockingAll
  | MsgBeginUnlocking
  | MsgForceUnlock
deriving DecidableEq, Repr

/-- The descriptor `osmocli.TxCliDesc` handed to `BuildTxCli`. -/
structure TxCliDesc where
  Use : String
  Short : String
  Long : String
  CustomFlagOverrides : List (String × String)
deriving DecidableEq, Repr

/-- A transaction command: the descriptor and the message type the generic
builder was instantiated with. -/
structure TxCmd where
  Msg : MsgKind
  Desc : TxCliDesc
deriving DecidableEq, Repr

/-- The generic builder `osmocli.BuildTxCli[M](desc)`: the command fills in and
broadcasts a message of type `M`. -/
def BuildTxCli (M : MsgKind) (desc : TxCliDesc) : TxCmd := ⟨M, desc⟩

/-- A by-id unlock request as built from the command line: its message type,
the lock ID argument and the coins of the amount flag (absent: whole lock). -/
structure UnlockTx where
  Kind : MsgKind
  ID : Nat
  Coins : Option (List Coin)
deriving DecidableEq, Repr

/-- The transaction a by-id command builds from its `[id]` argument and its
optional amount flag. -/
def TxCmd.buildTx (cmd : TxCmd) (id : Nat) (amount : Option (List Coin)) : UnlockTx :=
  ⟨cmd.Msg, id, amount⟩

def FlagAmount : String := "amount"

/-- The command `NewBeginUnlockByIDCmd`. -/
def NewBeginUnlockByIDCmd : TxCmd :=
  BuildTxCli MsgKind.MsgBeginUnlocking
    { Use := "begin-unlock-by-id [id]"
      Short := "begin unlock individual period lock by ID"
      Long := ""
      CustomFlagOverrides := [("coins", FlagAmount)] }

/-- The command `NewForceUnlockByIdCmd`. -/
def NewForceUnlockByIdCmd : TxCmd :=
  BuildTxCli MsgKind.MsgBeginUnlocking
    { Use := "force-unlock-by-id [id]"
      Short := "force unlocks individual period lock by ID"
      Long := "force unlocks individual period lock by ID. if no amount provided, entire lock is unlocked"
      CustomFlagOverrides := [("coins", FlagAmount)] }

end lockup

/-! ## Go standard library: `strconv` and `strings` -/

/-- A Go string, as its sequence of code points. -/
abbrev GoString := List Char

namespace strconv

/-- The two failure kinds of a `*NumError` (`ErrSyntax`, `ErrRange`). -/
inductive NumError where
  | invalidSyntax
  | outOfRange
deriving DecidableEq, Repr

/-- The largest `uint64`. -/
def maxUint64 : Nat := 2 ^ 64 - 1

/-- ASCII lower-casing of a byte: `c | ('x' - 'X')`. -/
def lower (c : Nat) : Nat := c ||| 0x20

/-- The digit a byte stands for in `ParseUint`: `0`-`9`, then letters from ten
on; `none` is the `default` branch (a syntax error). -/
def digitOf (c : Char) : Option Nat :=
  if 48 ≤ c.toNat ∧ c.toNat ≤ 57 then some (c.toNat - 48)
  else if 97 ≤ lower c.toNat ∧ lower c.toNat ≤ 122 then some (lower c.toNat - 97 + 10)
  else none

/-- The value `maxVal := uint64(1)<<uint(bitSize) - 1`, in `uint64` arithmetic. -/
def maxVal (bitSize : Nat) : Nat := (2 ^ bitSize % 2 ^ 64 + 2 ^ 64 - 1) % 2 ^ 64

/-- The smallest number such that `cutoff*base > maxUint64`. -/
def cutoff (base : Nat) : Nat := maxUint64 / base + 1

/-- The digit loop of `ParseUint` for a base in `2..36`, with the running
`uint64` value `n`. -/
def parseUintLoop (base bitSize : Nat) : GoString → Nat → Nat × Option NumError
  | [], n => (n, none)
  | c :: cs, n =>
    match digitOf c with
    | none => (0, some NumError.invalidSyntax)
    | some d =>
      if d ≥ base then (0, some NumError.invalidSyntax)
      else if n ≥ cutoff base then (maxVal bitSize, some NumError.outOfRange)
      else
        let n0 := n * base % 2 ^ 64
        let n1 := (n0 + d) % 2 ^ 64
        if n1 < n0 ∨ n1 > maxVal bitSize then (maxVal bitSize, some NumError.outOfRange)
        else parseUintLoop base bitSize cs n1

/-- The function `strconv.ParseUint(s, base, bitSize)` for an explicit base
`2 ≤ base ≤ 36` and `0 < bitSize ≤ 64`, the only way this repository calls it. -/
def ParseUint (s : GoString) (base bitSize : Nat) : Nat × Option NumError :=
  if s = [] then (0, some NumError.invalidSyntax)
  else parseUintLoop base bitSize s 0

/-- The conversion `int64(un)` of a `uint64`. -/
def toInt64 (un : Nat) : Int :=
  if un % 2 ^ 64 < 2 ^ 63 then (un % 2 ^ 64 : Nat) else ((un % 2 ^ 64 : Nat) : Int) - 2 ^ 64

/-- Negation of an `int64`, wrapping as the machine does. -/
def negInt64 (n : Int) : Int := toInt64 ((- n) % 2 ^ 64).toNat

/-- The function `strconv.ParseInt(s, base, bitSize)`, same bases and sizes. -/
def ParseInt (s : GoString) (base bitSize : Nat) : Int × Option NumError :=
  match s with
  | [] => (0, some NumError.invalidSyntax)
  | c :: cs =>
    let neg := c = '-'
    let s1 := if c = '+' then cs else if c = '-' then cs else c :: cs
    let r := ParseUint s1 base bitSize
    if r.2 = some NumError.invalidSyntax then (0, some NumError.invalidSyntax)
    else
      let cut := 2 ^ (bitSize - 1) % 2 ^ 64
      if ¬ neg ∧ r.1 ≥ cut then (toInt64 (cut - 1), some NumError.outOfRange)
      else if neg ∧ r.1 > cut then (negInt64 (toInt64 cut), some NumError.outOfRange)
      else
        let n := toInt64 r.1
        (if neg then negInt64 n else n, none)

end strconv

/-! ### Decimal numerals -/

/-- The byte is one of the decimal digits `0`-`9`. -/
def isDigitChar (c : Char) : Bool := decide (48 ≤ c.toNat) && decide (c.toNat ≤ 57)

/-- The string is a decimal numeral: at least one character, decimal digits only. -/
def isDecimal (s : GoString) : Bool := !s.isEmpty && s.all isDigitChar

/-- The number read by appending the digits of `cs` to the number `n`. -/
def decFold (n : Nat) (cs : GoString) : Nat :=
  cs.foldl (fun n c => 10 * n + (c.toNat - 48)) n

/-- The exact mathematical value of a decimal numeral, without any bound. -/
def decimalValue (s : GoString) : Nat := decFold 0 s

namespace unicode

/-- The predicate `unicode.IsSpace`: the Latin-1 spaces and the other code
points of the `White_Space` property. -/
def IsSpace (r : Char) : Bool :=
  let n := r.toNat
  if n ≤ 0xFF then
    n = 0x09 || n = 0x0A || n = 0x0B || n = 0x0C || n = 0x0D || n = 0x20 || n = 0x85 || n = 0xA0
  else
    n = 0x1680 || (0x2000 ≤ n && n ≤ 0x200A) || n = 0x2028 || n = 0x2029
      || n = 0x202F || n = 0x205F || n = 0x3000

end unicode

namespace strings

/-- The function `strings.TrimSpace`: all leading and trailing white space removed. -/
def TrimSpace (s : GoString) : GoString :=
  ((s.dropWhile unicode.IsSpace).reverse.dropWhile unicode.IsSpace).reverse

/-- The function `strings.Index(s, sep)`: the first position where `sep` starts in
`s`, `none` for -1. -/
def Index : GoString → GoString → Option Nat
  | [], sep => if sep = [] then some 0 else none
  | c :: cs, sep =>
    if sep.isPrefixOf (c :: cs) then some 0
    else (Index cs sep).map (· + 1)

/-- The loop of `strings.Count` for a non-empty `substr`: non-overlapping
instances, left to right. -/
def countLoop (substr : GoString) : Nat → GoString → Nat
  | 0, _ => 0
  | fuel + 1, s =>
    match Index s substr with
    | none => 0
    | some i => countLoop substr fuel (s.drop (i + substr.length)) + 1

/-- The function `strings.Count(s, substr)` for a non-empty `substr`. -/
def Count (s substr : GoString) : Nat := countLoop substr s.length s

/-- The loop `for i < n` of `genSplit`: cut at the first `sep`, go on with
what follows it; the last piece is the rest. -/
def genSplitLoop (sep : GoString) : Nat → GoString → List GoString
  | 0, s => [s]
  | n + 1, s =>
    match Index s sep with
    | none => [s]
    | some m => s.take m :: genSplitLoop sep n (s.drop (m + sep.length))

/-- The function `strings.Split(s, sep)`, i.e. `genSplit(s, sep, 0, -1)`: with an
empty separator the string is exploded into its code points, otherwise it is
cut at each of the `Count(s, sep)` instances of `sep`. -/
def Split (s sep : GoString) : List GoString :=
  if sep = [] then s.map fun c => [c]
  else
    let n := Count s sep + 1
    let n := if n > s.length + 1 then s.length + 1 else n
    genSplitLoop sep (n - 1) s

end strings

/-! ## `osmoutils/cli_helpers.go` -/

namespace osmoutils

def base : Nat := 10

def bitlen : Nat := 64

/-- The loop of `ParseSdkIntFromString` over the pieces, with the integers
parsed so far; the error, when there is one, comes with them. -/
def parseSdkIntLoop : List GoString → List Int → List Int × Option strconv.NumError
  | [], parsedInts => (parsedInts, none)
  | weightStr :: rest, parsedInts =>
    let weightStr := strings.TrimSpace weightStr
    let r := strconv.ParseUint weightStr base bitlen
    match r.2 with
    | some err => (parsedInts, some err)
    | none => parseSdkIntLoop rest (parsedInts ++ [(r.1 : Int)])

/-- The function `ParseSdkIntFromString(s, separator)`. -/
def ParseSdkIntFromString (s separator : GoString) : List Int × Option strconv.NumError :=
  parseSdkIntLoop (strings.Split s separator) []

end osmoutils

/-! ## Go standard library: `time` -/

namespace time

/-- An instant without monotonic reading: seconds since the Unix epoch and
nanoseconds within the second. -/
structure Time where
  sec : Int
  nsec : Nat
deriving DecidableEq, Repr

/-- Seconds from January 1 of year 1 to the Unix epoch (`unixToInternal`). -/
def unixToInternal : Int := 62135596800

/-- The zero value `time.Time\x7b\x7d`: January 1, year 1, 00:00:00 UTC. -/
def zeroTime : Time := ⟨- unixToInternal, 0⟩

/-- The method `t.IsZero()`: the instant is the zero value. -/
def Time.IsZero (t : Time) : Bool := t.sec = - unixToInternal && t.nsec = 0

/-- The method `t.Before(u)`: the instant `t` is strictly earlier than `u`. -/
def Time.Before (t u : Time) : Bool :=
  decide (t.sec < u.sec) || (t.sec = u.sec && decide (t.nsec < u.nsec))

/-- The constructor `time.Unix(sec, nsec)`, with `nsec` brought into `[0, 1e9)`. -/
def Unix (sec nsec : Int) : Time :=
  ⟨sec + nsec / 1000000000, (nsec % 1000000000).toNat⟩

end time

/-! ## `x/lockup/client/cli/query.go`: `GetCmdOutputLocksJson` -/

namespace lockup

/-- The stored lock `types.PeriodLock` as the query returns it. -/
structure PeriodLock where
  ID : Nat
  Owner : GoString
  Duration : Int
  EndTime : time.Time
  Coins : List Coin
deriving DecidableEq, Repr

def doesnt_exist_status : Int := 0

def unbonding_status : Int := 1

def bonded_status : Int := 2

/-- A record of the export (`LockResult`). `Amount` is `none` for the zero
value of `sdk.Int`, which holds no number. -/
structure LockResult where
  Id : Int
  Status : Int
  Denom : GoString
  Amount : Option Int
  Address : GoString
  UnbondEndTime : time.Time
deriving DecidableEq, Repr

/-- The record `LockResult\x7bId: i\x7d`: every other field at its zero value. -/
def newLockResult (i : Int) : LockResult :=
  { Id := i, Status := 0, Denom := [], Amount := none, Address := [],
    UnbondEndTime := time.zeroTime }

/-- The answer of the `LockedByID` query for each lock ID: `none` when the
query returns an error. -/
abbrev QueryClient := Nat → Option PeriodLock

/-- The body of the export loop for the ID `i`: the record appended to
`results`, or `none` when indexing `Coins[0]` is out of range (a run-time panic). -/
def lockResult (queryClient : QueryClient) (i : Int) : Option LockResult :=
  let curLockResult := newLockResult i
  match queryClient (i % 2 ^ 64).toNat with
  | none => some { curLockResult with Status := doesnt_exist_status }
  | some lock =>
    if lock.EndTime.Before (time.Unix 1527019420 0) then
      some { curLockResult with Status := bonded_status }
    else
      match lock.Coins with
      | [] => none
      | coin :: _ =>
        some { curLockResult with
          Status := unbonding_status
          UnbondEndTime := lock.EndTime
          Denom := coin.Denom
          Amount := some coin.Amount
          Address := lock.Owner }

/-- How a run of the export ends. -/
inductive RunResult where
  | parseError (err : strconv.NumError)
  | panicked
  | unfinished
  | written (results : List LockResult)
deriving DecidableEq, Repr

/-- The loop `for i := 0; i <= int(maxLockID); i++`, from the counter `i` with
the records so far; `fuel` bounds the number of turns. -/
def exportLoop (queryClient : QueryClient) (maxLockID : Int) :
    Nat → Int → List LockResult → RunResult
  | 0, _, _ => RunResult.unfinished
  | fuel + 1, i, results =>
    if i ≤ maxLockID then
      match lockResult queryClient i with
      | none => RunResult.panicked
      | some curLockResult =>
        exportLoop queryClient maxLockID fuel (i + 1) (results ++ [curLockResult])
    else RunResult.written results

/-- The `RunE` of `output-all-locks <max lock ID>` on its one argument, once the
client context is there: the records marshalled into `lock_export.json`, or how
the run fails before marshalling. The loop
tests its condition `maxLockID + 2` times, once when `maxLockID` is negative. -/
def outputAllLocks (queryClient : QueryClient) (arg : GoString) : RunResult :=
  let r := strconv.ParseInt arg 10 32
  match r.2 with
  | some err => RunResult.parseError err
  | none =>
    let maxLockID := r.1
    exportLoop queryClient maxLockID ((maxLockID + 1).toNat + 1) 0 []

end lockup

/-! ### Sample locks -/

namespace lockup

/-- A bonded lock: its end time is the zero value. -/
def sampleBonded : PeriodLock :=
  { ID := 1, Owner := "osmo1aaa".toList, Duration := 604800, EndTime := time.zeroTime,
    Coins := [⟨"uosmo".toList, 100⟩] }

/-- A lock that started unlocking in September 2020. -/
def sampleUnbonding : PeriodLock :=
  { ID := 2, Owner := "osmo1bbb".toList, Duration := 604800,
    EndTime := time.Unix 1600000000 0,
    Coins := [⟨"uosmo".toList, 25⟩, ⟨"uion".toList, 3⟩] }

/-- A lock whose end time is set to an instant of September 2001, earlier than
the hardcoded instant of the export. -/
def sampleEarly : PeriodLock :=
  { ID := 3, Owner := "osmo1ccc".toList, Duration := 604800,
    EndTime := time.Unix 1000000000 0,
    Coins := [⟨"uosmo".toList, 7⟩] }

/-- A chain with the three sample locks at the IDs 1, 2 and 3 and no other. -/
def sampleClient : QueryClient := fun id =>
  if id = 1 then some sampleBonded
  else if id = 2 then some sampleUnbonding
  else if id = 3 then some sampleEarly
  else none

end lockup

/-! ## The lock state machine of the specification (sections 3, 4.1, 4.2) -/

namespace engine

open lockup (Coin)

/-- Modelled from the spec: the status of a stored lock (section 3); a released
lock is the absence of the record. The keeper of the lockup module is not among
the source files. -/
inductive Status where
  | Bonded
  | Unlocking
deriving DecidableEq, Repr

/-- Modelled from the spec: the `Lock` record of section 3. Times and durations
are counted in seconds; `endTime` is `none` while unset. -/
structure Lock where
  ID : Nat
  owner : GoString
  coins : List Coin
  duration : Nat
  endTime : Option Nat
  status : Status
deriving DecidableEq, Repr

/-- Modelled from the spec: the Lock Store of section 4.1 with the explicit ID
counter of section 9. The duration and time indices point into the store and
are not part of this model. -/
structure LockStore where
  locks : List Lock
  nextID : Nat
deriving DecidableEq, Repr

/-- Modelled from the spec: the error kinds of section 7. -/
inductive LockError where
  | NotFound
  | InvalidCoins
  | InvalidDuration
  | InvalidState
  | InsufficientFunds
  | DuplicateSuffix
deriving DecidableEq, Repr

/-- Modelled from the spec: the amount of a denom held in a coin set, zero when
the denom does not occur. -/
def amountOf : List Coin → GoString → Int
  | [], _ => 0
  | c :: cs, d => if c.Denom = d then c.Amount else amountOf cs d

/-- Modelled from the spec: a well-formed coin set (section 3): non-empty, every
amount positive, every denom once. -/
def validCoins (cs : List Coin) : Bool :=
  !cs.isEmpty && cs.all (fun c => decide (0 < c.Amount)) && decide (cs.map (·.Denom)).Nodup

/-- Modelled from the spec: the subset does not exceed the held coins for any
denom; otherwise `InsufficientFunds` (section 4.2). -/
def coversSubset (held sub : List Coin) : Bool :=
  sub.all fun c => decide (c.Amount ≤ amountOf held c.Denom)

/-- Modelled from the spec: the subset is the full set of coins of the lock
(section 4.2). -/
def isFullSet (held sub : List Coin) : Bool :=
  held.all fun c => decide (amountOf sub c.Denom = c.Amount)

/-- Modelled from the spec: the coins of a lock reduced by a subset (section
4.2); a denom whose amount reaches zero leaves the set, amounts being positive. -/
def reduceCoins (held sub : List Coin) : List Coin :=
  held.filterMap fun c =>
    if c.Amount - amountOf sub c.Denom ≤ 0 then none
    else some { c with Amount := c.Amount - amountOf sub c.Denom }

/-- Modelled from the spec: `Get(lockID)` of section 4.1, `none` for `NotFound`. -/
def LockStore.get (store : LockStore) (lockID : Nat) : Option Lock :=
  store.locks.find? fun l => l.ID = lockID

/-- Modelled from the spec: the record of `lockID` replaced by `lock`. -/
def LockStore.set (store : LockStore) (lockID : Nat) (lock : Lock) : LockStore :=
  { store with locks := store.locks.map fun l => if l.ID = lockID then lock else l }

/-- Modelled from the spec: `BeginUnlocking(lockID, coinsSubset?)` of section
4.2 at the time `now`. With the full set of coins (or none given) the lock goes
to Unlocking in place, with `endTime = now + duration`. With a strict,
non-empty subset the lock is split: the original keeps its ID, stays Bonded and
loses the subset, and a new lock with the next ID, the same owner and duration,
holding exactly the subset, is created in Unlocking state; its ID is returned.
Every check comes before the first mutation (section 7). -/
def BeginUnlocking (store : LockStore) (now : Nat) (lockID : Nat)
    (coinsSubset : Option (List Coin)) : Except LockError (LockStore × Option Nat) :=
  match store.get lockID with
  | none => Except.error LockError.NotFound
  | some lock =>
    if lock.status = Status.Unlocking then Except.error LockError.InvalidState
    else
      let inPlace : LockStore :=
        store.set lockID
          { lock with endTime := some (now + lock.duration), status := Status.Unlocking }
      match coinsSubset with
      | none => Except.ok (inPlace, none)
      | some sub =>
        if ¬ validCoins sub then Except.error LockError.InvalidCoins
        else if ¬ coversSubset lock.coins sub then Except.error LockError.InsufficientFunds
        else if isFullSet lock.coins sub then Except.ok (inPlace, none)
        else
          let newLock : Lock :=
            { ID := store.nextID, owner := lock.owner, coins := sub,
              duration := lock.duration, endTime := some (now + lock.duration),
              status := Status.Unlocking }
          let reduced := store.set lockID { lock with coins := reduceCoins lock.coins sub }
          Except.ok
            ({ locks := reduced.locks ++ [newLock], nextID := store.nextID + 1 },
              some store.nextID)

/-- A bonded lock of 100 `uosmo` and 5 `uion` for seven days. -/
def sampleLock : Lock :=
  { ID := 1, owner := "osmo1aaa".toList,
    coins := [⟨"uosmo".toList, 100⟩, ⟨"uion".toList, 5⟩],
    duration := 604800, endTime := none, status := Status.Bonded }

/-- A store holding `sampleLock` alone. -/
def sampleStore : LockStore := { locks := [sampleLock], nextID := 2 }

/-- A strict subset of the coins of `sampleLock`: 40 `uosmo`. -/
def sampleSubset : List Coin := [⟨"uosmo".toList, 40⟩]

end engine

/-! # Theorems -/

/-! ## Constants of `x/gamm/types` -/

/-- C5: `SpotPriceSigFigs` is exactly the integer 100000000, that is 10 raised
to `SigFigsExponent = 8`; the fixed-point power is the exact decimal of that
integer (no fractional part, no rounding) and truncation returns it unchanged. -/
theorem gamm_SpotPriceSigFigs_eq :
    gamm.SigFigsExponent = 8 ∧
    gamm.SpotPriceSigFigs = some 100000000 ∧
    gamm.SpotPriceSigFigs = some ((10 : Int) ^ gamm.SigFigsExponent) ∧
    sdk.Power (sdk.NewDec 10) gamm.SigFigsExponent
      = some (sdk.NewDec ((10 : Int) ^ gamm.SigFigsExponent)) ∧
    sdk.NewDec ((10 : Int) ^ gamm.SigFigsExponent) % sdk.precisionReuse = 0 := by
  refine ⟨rfl, ?_, ?_, ?_, ?_⟩ <;> rfl

/-- C3: the code gives `StableswapMaxScaledAmtPerAsset` the value `10^34`, which
is not the `10e34 = 10 * 10^34 = 10^35` of its comment. -/
theorem gamm_StableswapMaxScaledAmtPerAsset_eq :
    gamm.StableswapMaxScaledAmtPerAsset = some ((10 : Int) ^ 34) ∧
    gamm.StableswapMaxScaledAmtPerAsset ≠ some (10 * (10 : Int) ^ 34) := by
  have h : gamm.StableswapMaxScaledAmtPerAsset = some ((10 : Int) ^ 34) := by
    set_option maxRecDepth 100000 in rfl
  refine ⟨h, ?_⟩
  rw [h]
  intro h2
  have h3 := Option.some.inj h2
  norm_num at h3

/-! ## Transaction commands of the lockup module -/

/-- C1: for every lock ID and optional amount, the transaction built by
`force-unlock-by-id` has the message type `MsgBeginUnlocking`, the same as the
one built by `begin-unlock-by-id`; it is never a `MsgForceUnlock`. -/
theorem lockup_force_unlock_cmd_builds_begin_unlocking
    (id : Nat) (amount : Option (List lockup.Coin)) :
    (lockup.NewForceUnlockByIdCmd.buildTx id amount).Kind = lockup.MsgKind.MsgBeginUnlocking ∧
    lockup.NewForceUnlockByIdCmd.buildTx id amount
      = lockup.NewBeginUnlockByIDCmd.buildTx id amount ∧
    (lockup.NewForceUnlockByIdCmd.buildTx id amount).Kind ≠ lockup.MsgKind.MsgForceUnlock := by
  refine ⟨rfl, rfl, ?_⟩
  intro h
  cases h

/-! ## `strconv.ParseUint` on decimal numerals -/

theorem decFold_ge (cs : GoString) : ∀ n, n ≤ decFold n cs := by
  induction cs with
  | nil => intro n; simp [decFold]
  | cons c cs ih =>
    intro n
    have h := ih (10 * n + (c.toNat - 48))
    simp only [decFold, List.foldl_cons] at h ⊢
    omega

theorem digitOf_digit (c : Char) (h : isDigitChar c = true) :
    strconv.digitOf c = some (c.toNat - 48) := by
  simp [isDigitChar] at h
  simp [strconv.digitOf, h]

theorem digitOf_lt_ten (c : Char) (d : Nat) (h : strconv.digitOf c = some d) (hd : d < 10) :
    isDigitChar c = true := by
  unfold strconv.digitOf at h
  split at h
  · rename_i hc
    simp [isDigitChar, hc]
  · split at h
    · simp at h; omega
    · simp at h

theorem maxVal_lt (bs : Nat) : strconv.maxVal bs < 2 ^ 64 := by
  unfold strconv.maxVal
  exact Nat.mod_lt _ (by norm_num)

theorem parseUintLoop_digits (bs : Nat) (cs : GoString) :
    ∀ n, n ≤ strconv.maxVal bs → (∀ c ∈ cs, isDigitChar c = true) →
      strconv.parseUintLoop 10 bs cs n =
        if decFold n cs ≤ strconv.maxVal bs then (decFold n cs, none)
        else (strconv.maxVal bs, some strconv.NumError.outOfRange) := by
  induction cs with
  | nil =>
    intro n hn _
    simp [strconv.parseUintLoop, decFold, hn]
  | cons c cs ih =>
    intro n hn hd
    have hc : isDigitChar c = true := hd c (List.mem_cons_self _ _)
    have hcs : ∀ x ∈ cs, isDigitChar x = true := fun x hx => hd x (List.mem_cons_of_mem _ hx)
    have hdig := digitOf_digit c hc
    have hc9 : c.toNat - 48 ≤ 9 := by
      simp [isDigitChar] at hc; omega
    have hmv := maxVal_lt bs
    have hge := decFold_ge cs (10 * n + (c.toNat - 48))
    have hfold : decFold n (c :: cs) = decFold (10 * n + (c.toNat - 48)) cs := by
      simp [decFold]
    rw [strconv.parseUintLoop, hdig, hfold]
    generalize c.toNat - 48 = d at *
    simp only [strconv.cutoff, strconv.maxUint64]
    norm_num
    have hd10 : ¬ 10 ≤ d := by omega
    rw [if_neg hd10]
    by_cases h1 : 1844674407370955162 ≤ n
    · rw [if_pos h1, if_neg (by omega)]
    · rw [if_neg h1]
      by_cases h2 : (n * 10 + d) % 18446744073709551616 < n * 10 % 18446744073709551616 ∨
          strconv.maxVal bs < (n * 10 + d) % 18446744073709551616
      · rw [if_pos h2, if_neg (by omega)]
      · rw [if_neg h2]
        have h3 : (n * 10 + d) % 18446744073709551616 = 10 * n + d := by omega
        rw [h3]
        exact ih (10 * n + d) (by omega) hcs

theorem parseUintLoop_nondigit (bs : Nat) (cs : GoString) :
    ∀ n, (∃ c ∈ cs, isDigitChar c = false) →
      (strconv.parseUintLoop 10 bs cs n).2 ≠ none := by
  induction cs with
  | nil => intro n h; simp at h
  | cons c cs ih =>
    intro n h
    rw [strconv.parseUintLoop]
    cases hdo : strconv.digitOf c with
    | none => simp
    | some d =>
      simp only
      by_cases hd : d ≥ 10
      · simp [hd]
      · rw [if_neg hd]
        split
        · simp
        · split
          · simp
          · apply ih
            obtain ⟨x, hx, hxd⟩ := h
            rcases List.mem_cons.mp hx with rfl | hx
            · have := digitOf_lt_ten x d hdo (by omega)
              simp [this] at hxd
            · exact ⟨x, hx, hxd⟩

theorem isDecimal_iff (s : GoString) :
    isDecimal s = true ↔ s ≠ [] ∧ ∀ c ∈ s, isDigitChar c = true := by
  cases s <;> simp [isDecimal]

/-- A decimal numeral within the bound parses to its exact value. -/
theorem ParseUint_decimal (bs : Nat) (s : GoString) (hs : isDecimal s = true)
    (hv : decimalValue s ≤ strconv.maxVal bs) :
    strconv.ParseUint s 10 bs = (decimalValue s, none) := by
  obtain ⟨hne, hd⟩ := (isDecimal_iff s).mp hs
  rw [strconv.ParseUint, if_neg hne, parseUintLoop_digits bs s 0 (Nat.zero_le _) hd]
  exact if_pos hv

/-- A decimal numeral beyond the bound is a range error. -/
theorem ParseUint_decimal_big (bs : Nat) (s : GoString) (hs : isDecimal s = true)
    (hv : strconv.maxVal bs < decimalValue s) :
    strconv.ParseUint s 10 bs = (strconv.maxVal bs, some strconv.NumError.outOfRange) := by
  obtain ⟨hne, hd⟩ := (isDecimal_iff s).mp hs
  rw [strconv.ParseUint, if_neg hne, parseUintLoop_digits bs s 0 (Nat.zero_le _) hd]
  exact if_neg (by unfold decimalValue at hv; omega)

/-- Whatever parses without error is a decimal numeral within the bound. -/
theorem ParseUint_ok (bs : Nat) (s : GoString) (h : (strconv.ParseUint s 10 bs).2 = none) :
    isDecimal s = true ∧ decimalValue s ≤ strconv.maxVal bs := by
  by_cases hs : isDecimal s = true
  · refine ⟨hs, ?_⟩
    by_contra hv
    rw [ParseUint_decimal_big bs s hs (by omega)] at h
    simp at h
  · exfalso
    rw [isDecimal_iff] at hs
    by_cases hne : s = []
    · simp [strconv.ParseUint, hne] at h
    · have hex : ∃ c ∈ s, isDigitChar c = false := by
        by_contra hno
        apply hs
        refine ⟨hne, fun c hc => ?_⟩
        by_contra hcd
        exact hno ⟨c, hc, by simpa using hcd⟩
      rw [strconv.ParseUint, if_neg hne] at h
      exact parseUintLoop_nondigit bs s 0 hex h

/-! ## The export of `output-all-locks` -/

theorem lockResult_error (q : lockup.QueryClient) (i : Int)
    (h : q (i % 2 ^ 64).toNat = none) :
    lockup.lockResult q i
      = some { lockup.newLockResult i with Status := lockup.doesnt_exist_status } := by
  unfold lockup.lockResult
  rw [h]

theorem lockResult_bonded (q : lockup.QueryClient) (i : Int) (lock : lockup.PeriodLock)
    (h : q (i % 2 ^ 64).toNat = some lock)
    (hb : lock.EndTime.Before (time.Unix 1527019420 0) = true) :
    lockup.lockResult q i
      = some { lockup.newLockResult i with Status := lockup.bonded_status } := by
  unfold lockup.lockResult
  rw [h]
  simp [hb]

theorem lockResult_unbonding (q : lockup.QueryClient) (i : Int) (lock : lockup.PeriodLock)
    (coin : lockup.Coin) (rest : List lockup.Coin)
    (h : q (i % 2 ^ 64).toNat = some lock)
    (hb : lock.EndTime.Before (time.Unix 1527019420 0) = false)
    (hc : lock.Coins = coin :: rest) :
    lockup.lockResult q i
      = some { Id := i, Status := lockup.unbonding_status, Denom := coin.Denom,
               Amount := some coin.Amount, Address := lock.Owner,
               UnbondEndTime := lock.EndTime } := by
  unfold lockup.lockResult
  rw [h]
  simp [hb, hc, lockup.newLockResult]

theorem lockResult_Id (q : lockup.QueryClient) (i : Int) (r : lockup.LockResult)
    (h : lockup.lockResult q i = some r) : r.Id = i := by
  unfold lockup.lockResult at h
  split at h
  · simp at h; rw [← h]; rfl
  · split at h
    · simp at h; rw [← h]; rfl
    · split at h
      · simp at h
      · simp at h; rw [← h]; rfl

theorem lockResult_isSome (q : lockup.QueryClient)
    (hcoins : ∀ id lock, q id = some lock → lock.Coins ≠ []) (i : Int) :
    ∃ r, lockup.lockResult q i = some r := by
  cases hq : q (i % 2 ^ 64).toNat with
  | none => exact ⟨_, lockResult_error q i hq⟩
  | some lock =>
    cases hb : lock.EndTime.Before (time.Unix 1527019420 0) with
    | true => exact ⟨_, lockResult_bonded q i lock hq hb⟩
    | false =>
      cases hc : lock.Coins with
      | nil => exact absurd hc (hcoins _ lock hq)
      | cons coin rest => exact ⟨_, lockResult_unbonding q i lock coin rest hq hb hc⟩

theorem exportLoop_written (q : lockup.QueryClient) (n : Int)
    (hall : ∀ i : Int, ∃ r, lockup.lockResult q i = some r) :
    ∀ (m : Nat) (i : Int) (acc : List lockup.LockResult), i + m = n + 1 →
      ∃ rs, lockup.exportLoop q n (m + 1) i acc = lockup.RunResult.written (acc ++ rs) ∧
        rs.length = m ∧
        ∀ j : Nat, j < m → ∃ r, rs[j]? = some r ∧ lockup.lockResult q (i + j) = some r := by
  intro m
  induction m with
  | zero =>
    intro i acc him
    refine ⟨[], ?_, rfl, fun j hj => absurd hj (Nat.not_lt_zero j)⟩
    have hgt : ¬ i ≤ n := by omega
    simp [lockup.exportLoop, hgt]
  | succ m ih =>
    intro i acc him
    have hle : i ≤ n := by omega
    obtain ⟨r, hr⟩ := hall i
    obtain ⟨rs, hrs, hlen, hget⟩ := ih (i + 1) (acc ++ [r]) (by omega)
    refine ⟨r :: rs, ?_, by simp [hlen], ?_⟩
    · rw [lockup.exportLoop, if_pos hle, hr]
      simp only
      rw [hrs]
      simp
    · intro j hj
      cases j with
      | zero => exact ⟨r, by simp, by simpa using hr⟩
      | succ j =>
        obtain ⟨r2, h1, h2⟩ := hget j (by omega)
        refine ⟨r2, by simpa using h1, ?_⟩
        have : i + ((j + 1 : Nat) : Int) = i + 1 + (j : Int) := by push_cast; ring
        rw [this]
        exact h2

/-- Once the argument parses to `n ≥ 0` and no returned lock has empty coins,
the export is written with one record for each ID from 0 to `n`. -/
theorem outputAllLocks_written (q : lockup.QueryClient) (arg : GoString) (n : Int)
    (hparse : strconv.ParseInt arg 10 32 = (n, none)) (hn : 0 ≤ n)
    (hcoins : ∀ id lock, q id = some lock → lock.Coins ≠ []) :
    ∃ results, lockup.outputAllLocks q arg = lockup.RunResult.written results ∧
      results.length = n.toNat + 1 ∧
      ∀ k : Nat, k ≤ n.toNat →
        ∃ r, results[k]? = some r ∧ lockup.lockResult q (k : Int) = some r := by
  obtain ⟨rs, hrs, hlen, hget⟩ :=
    exportLoop_written q n (lockResult_isSome q hcoins) ((n + 1).toNat) 0 [] (by omega)
  refine ⟨rs, ?_, ?_, ?_⟩
  · simp only [lockup.outputAllLocks, hparse]
    simpa using hrs
  · rw [hlen]; omega
  · intro k hk
    obtain ⟨r, h1, h2⟩ := hget k (by omega)
    exact ⟨r, h1, by simpa using h2⟩

theorem maxVal_32 : strconv.maxVal 32 = 4294967295 := by decide

theorem maxVal_64 : strconv.maxVal 64 = 18446744073709551615 := by decide

theorem cut_32 : 2 ^ (32 - 1) % 2 ^ 64 = 2147483648 := by norm_num

theorem toInt64_small (n : Nat) (h : n < 2 ^ 63) : strconv.toInt64 n = n := by
  unfold strconv.toInt64
  have h1 : n % 2 ^ 64 = n := Nat.mod_eq_of_lt (by omega)
  rw [h1, if_pos h]

theorem negInt64_nonpos (n : Nat) (h : n < 2 ^ 63) : strconv.negInt64 (n : Int) ≤ 0 := by
  unfold strconv.negInt64 strconv.toInt64
  split <;> omega

theorem ParseInt_decimal_small (s : GoString) (hs : isDecimal s = true)
    (hv : decimalValue s < 2 ^ 31) :
    strconv.ParseInt s 10 32 = ((decimalValue s : Int), none) := by
  have hp := ParseUint_decimal 32 s hs (by rw [maxVal_32]; omega)
  obtain ⟨hne, hd⟩ := (isDecimal_iff s).mp hs
  cases s with
  | nil => exact absurd rfl hne
  | cons c cs =>
    have hc : isDigitChar c = true := hd c (List.mem_cons_self _ _)
    have hplus : c ≠ '+' := by rintro rfl; simp [isDigitChar] at hc
    have hminus : c ≠ '-' := by rintro rfl; simp [isDigitChar] at hc
    simp only [strconv.ParseInt, hplus, hminus, if_false, hp, cut_32]
    generalize decimalValue (c :: cs) = v at *
    have h1 : ¬ (¬ False ∧ v ≥ 2147483648) := by omega
    rw [if_neg (by simp), if_neg h1, if_neg (by simp), toInt64_small v (by omega)]

theorem ParseInt_decimal_large (s : GoString) (hs : isDecimal s = true)
    (hv : 2 ^ 31 ≤ decimalValue s) :
    (strconv.ParseInt s 10 32).2 = some strconv.NumError.outOfRange := by
  obtain ⟨hne, hd⟩ := (isDecimal_iff s).mp hs
  have hp : (strconv.ParseUint s 10 32).2 ≠ some strconv.NumError.invalidSyntax ∧
      2147483648 ≤ (strconv.ParseUint s 10 32).1 := by
    by_cases hbig : decimalValue s ≤ strconv.maxVal 32
    · rw [ParseUint_decimal 32 s hs hbig]
      exact ⟨by simp, by simpa using hv⟩
    · rw [ParseUint_decimal_big 32 s hs (by omega), maxVal_32]
      exact ⟨by simp, by norm_num⟩
  cases s with
  | nil => exact absurd rfl hne
  | cons c cs =>
    have hc : isDigitChar c = true := hd c (List.mem_cons_self _ _)
    have hplus : c ≠ '+' := by rintro rfl; simp [isDigitChar] at hc
    have hminus : c ≠ '-' := by rintro rfl; simp [isDigitChar] at hc
    simp only [strconv.ParseInt, hplus, hminus, if_false, cut_32]
    generalize strconv.ParseUint (c :: cs) 10 32 = r at *
    have h1 : ¬ False ∧ r.1 ≥ 2147483648 := ⟨not_false, hp.2⟩
    rw [if_neg hp.1, if_pos h1]

theorem ParseInt_32_lt (arg : GoString) (n : Int)
    (h : strconv.ParseInt arg 10 32 = (n, none)) : n < 2 ^ 31 := by
  cases arg with
  | nil => simp [strconv.ParseInt] at h
  | cons c cs =>
    simp only [strconv.ParseInt, cut_32] at h
    generalize strconv.ParseUint (if c = '+' then cs else if c = '-' then cs else c :: cs) 10 32
      = r at h
    split at h
    · simp at h
    · split at h
      · simp at h
      · split at h
        · simp at h
        · rename_i h1 h2 h3
          have hn : n = if (c = '-') then strconv.negInt64 (strconv.toInt64 r.1)
              else strconv.toInt64 r.1 := by
            have := congrArg Prod.fst h
            simpa using this.symm
          by_cases hneg : c = '-'
          · simp only [hneg, true_and, not_lt, gt_iff_lt] at h3
            have hr : r.1 < 2 ^ 63 := by omega
            rw [hn, if_pos hneg, toInt64_small r.1 hr]
            have := negInt64_nonpos r.1 hr
            omega
          · simp only [hneg, not_false_eq_true, true_and, ge_iff_le, not_le, decide_False,
              decide_eq_true_eq] at h2
            have hr : r.1 < 2 ^ 63 := by omega
            rw [hn, if_neg hneg, toInt64_small r.1 hr]
            omega
theorem sampleClient_coins (id : Nat) (lock : lockup.PeriodLock)
    (h : lockup.sampleClient id = some lock) : lock.Coins ≠ [] := by
  unfold lockup.sampleClient at h
  split at h
  · cases h; simp [lockup.sampleBonded]
  · split at h
    · cases h; simp [lockup.sampleUnbonding]
    · split at h
      · cases h; simp [lockup.sampleEarly]
      · cases h

theorem toNat_mod_cast (k : Nat) (h : k < 2 ^ 64) : ((k : Int) % 2 ^ 64).toNat = k := by
  omega

/-- C2 (as stated, refuted): the lock `sampleEarly` has its end time set (it is
not the zero value), yet the export reports it as bonded, not unbonding. -/
theorem export_set_endTime_reported_bonded :
    lockup.sampleEarly.EndTime.IsZero = false ∧
    lockup.sampleClient 3 = some lockup.sampleEarly ∧
    (lockup.lockResult lockup.sampleClient 3).map (·.Status) = some lockup.bonded_status ∧
    lockup.bonded_status ≠ lockup.unbonding_status := by
  decide

/-- C2 (amended): for every lock with at least one coin that lock-by-id returns,
the export reports status unbonding exactly when the end time is not before
the instant `time.Unix(1527019420, 0)` and status bonded exactly when it is
before it; an unset (zero) end time is before it, hence bonded. -/
theorem export_status_by_hardcoded_time (q : lockup.QueryClient) (i : Int)
    (lock : lockup.PeriodLock) (hq : q (i % 2 ^ 64).toNat = some lock)
    (hcoins : lock.Coins ≠ []) :
    ∃ r, lockup.lockResult q i = some r ∧
      (r.Status = lockup.unbonding_status ↔
        lock.EndTime.Before (time.Unix 1527019420 0) = false) ∧
      (r.Status = lockup.bonded_status ↔
        lock.EndTime.Before (time.Unix 1527019420 0) = true) ∧
      (lock.EndTime.IsZero = true → r.Status = lockup.bonded_status) := by
  have hzero : lock.EndTime.IsZero = true →
      lock.EndTime.Before (time.Unix 1527019420 0) = true := by
    intro hz
    simp only [time.Time.IsZero, time.unixToInternal, Bool.and_eq_true, decide_eq_true_eq] at hz
    simp only [time.Time.Before, time.Unix, hz.1]
    rw [Bool.or_eq_true]
    left
    decide
  cases hb : lock.EndTime.Before (time.Unix 1527019420 0) with
  | true =>
    refine ⟨_, lockResult_bonded q i lock hq hb, ?_, ?_, ?_⟩
    · simp [lockup.bonded_status, lockup.unbonding_status]
    · simp
    · intro _; rfl
  | false =>
    cases hc : lock.Coins with
    | nil => exact absurd hc hcoins
    | cons coin rest =>
      refine ⟨_, lockResult_unbonding q i lock coin rest hq hb hc, ?_, ?_, ?_⟩
      · simp
      · simp [lockup.bonded_status, lockup.unbonding_status]
      · intro hz
        rw [hzero hz] at hb
        cases hb

theorem export_status_by_hardcoded_time_witness :
    lockup.sampleClient (((2 : Int) % 2 ^ 64).toNat) = some lockup.sampleUnbonding ∧
    lockup.sampleUnbonding.Coins ≠ [] ∧
    ∃ r, lockup.lockResult lockup.sampleClient 2 = some r ∧
      (r.Status = lockup.unbonding_status ↔
        lockup.sampleUnbonding.EndTime.Before (time.Unix 1527019420 0) = false) ∧
      (r.Status = lockup.bonded_status ↔
        lockup.sampleUnbonding.EndTime.Before (time.Unix 1527019420 0) = true) ∧
      (lockup.sampleUnbonding.EndTime.IsZero = true → r.Status = lockup.bonded_status) :=
  ⟨by decide, by decide,
    export_status_by_hardcoded_time lockup.sampleClient 2 lockup.sampleUnbonding
      (by decide) (by decide)⟩

/-- C9: when a lock returned for the ID `i` has non-empty coins and is
classified as unbonding (its end time is not before the hardcoded instant),
reading `Coins[0]` is defined: the record is produced, and its `Denom` and
`Amount` are those of the first coin of the lock. -/
theorem export_unbonding_reads_first_coin (q : lockup.QueryClient) (i : Int)
    (lock : lockup.PeriodLock) (hq : q (i % 2 ^ 64).toNat = some lock)
    (hcoins : lock.Coins ≠ [])
    (hunb : lock.EndTime.Before (time.Unix 1527019420 0) = false) :
    ∃ coin rest, lock.Coins = coin :: rest ∧
      lockup.lockResult q i
        = some { Id := i, Status := lockup.unbonding_status, Denom := coin.Denom,
                 Amount := some coin.Amount, Address := lock.Owner,
                 UnbondEndTime := lock.EndTime } := by
  cases hc : lock.Coins with
  | nil => exact absurd hc hcoins
  | cons coin rest =>
    exact ⟨coin, rest, rfl, lockResult_unbonding q i lock coin rest hq hunb hc⟩

theorem export_unbonding_reads_first_coin_witness :
    lockup.sampleUnbonding.Coins ≠ [] ∧
    lockup.sampleUnbonding.EndTime.Before (time.Unix 1527019420 0) = false ∧
    ∃ coin rest, lockup.sampleUnbonding.Coins = coin :: rest ∧
      lockup.lockResult lockup.sampleClient 2
        = some { Id := 2, Status := lockup.unbonding_status, Denom := coin.Denom,
                 Amount := some coin.Amount, Address := lockup.sampleUnbonding.Owner,
                 UnbondEndTime := lockup.sampleUnbonding.EndTime } :=
  ⟨by decide, by decide,
    export_unbonding_reads_first_coin lockup.sampleClient 2 lockup.sampleUnbonding
      (by decide) (by decide) (by decide)⟩

/-- C6: for every accepted `<max lock ID>` `n ≥ 0`, over locks with non-empty
coins, the export is written with exactly `n + 1` records, the record at
position `k` has `Id = k`, and an ID whose query fails is present as the record
with status doesn't-exist (0) and every other field at its zero value. -/
theorem export_covers_ids_up_to_bound (q : lockup.QueryClient) (arg : GoString) (n : Int)
    (hparse : strconv.ParseInt arg 10 32 = (n, none)) (hn : 0 ≤ n)
    (hcoins : ∀ id lock, q id = some lock → lock.Coins ≠ []) :
    ∃ results, lockup.outputAllLocks q arg = lockup.RunResult.written results ∧
      results.length = n.toNat + 1 ∧
      ∀ k : Nat, k ≤ n.toNat →
        ∃ r, results[k]? = some r ∧ r.Id = (k : Int) ∧
          (q k = none →
            r = { lockup.newLockResult k with Status := lockup.doesnt_exist_status }) := by
  obtain ⟨results, hrun, hlen, hget⟩ := outputAllLocks_written q arg n hparse hn hcoins
  have hlt := ParseInt_32_lt arg n hparse
  refine ⟨results, hrun, hlen, fun k hk => ?_⟩
  obtain ⟨r, h1, h2⟩ := hget k hk
  refine ⟨r, h1, lockResult_Id q k r h2, fun hnone => ?_⟩
  have hk64 : k < 2 ^ 64 := by omega
  have herr := lockResult_error q k (by rw [toNat_mod_cast k hk64]; exact hnone)
  rw [herr] at h2
  exact (Option.some.inj h2).symm

theorem export_covers_ids_up_to_bound_witness :
    strconv.ParseInt "4".toList 10 32 = (4, none) ∧ (0 : Int) ≤ 4 ∧
    ∃ results, lockup.outputAllLocks lockup.sampleClient "4".toList
        = lockup.RunResult.written results ∧
      results.length = (4 : Int).toNat + 1 ∧
      ∀ k : Nat, k ≤ (4 : Int).toNat →
        ∃ r, results[k]? = some r ∧ r.Id = (k : Int) ∧
          (lockup.sampleClient k = none →
            r = { lockup.newLockResult k with Status := lockup.doesnt_exist_status }) :=
  ⟨by decide, by decide,
    export_covers_ids_up_to_bound lockup.sampleClient "4".toList 4 (by decide) (by decide)
      sampleClient_coins⟩

/-- C7 (as stated, refuted): the decimal argument 2147483648 is below `2^63`,
yet parsing it fails with a range error and nothing is exported. -/
theorem output_all_locks_rejects_2_pow_31 :
    isDecimal "2147483648".toList = true ∧
    decimalValue "2147483648".toList = 2147483648 ∧
    (2147483648 : Nat) < 2 ^ 63 ∧
    strconv.ParseInt "2147483648".toList 10 32
      = (2147483647, some strconv.NumError.outOfRange) ∧
    lockup.outputAllLocks lockup.sampleClient "2147483648".toList
      = lockup.RunResult.parseError strconv.NumError.outOfRange := by
  decide

/-- C7 (amended): the `<max lock ID>` is parsed as a signed 32-bit number. For
every decimal argument with value `n < 2^31`, parsing succeeds with `n` and,
over locks with non-empty coins, the export has the `n + 1` records of the IDs
0 through `n`; every decimal argument with value `n ≥ 2^31` is rejected with a
range error. -/
theorem output_all_locks_accepts_below_2_pow_31 (q : lockup.QueryClient) (s : GoString)
    (hs : isDecimal s = true)
    (hcoins : ∀ id lock, q id = some lock → lock.Coins ≠ []) :
    (decimalValue s < 2 ^ 31 →
      strconv.ParseInt s 10 32 = ((decimalValue s : Int), none) ∧
      ∃ results, lockup.outputAllLocks q s = lockup.RunResult.written results ∧
        results.length = decimalValue s + 1 ∧
        ∀ k : Nat, k ≤ decimalValue s → ∃ r, results[k]? = some r ∧ r.Id = (k : Int)) ∧
    (2 ^ 31 ≤ decimalValue s →
      lockup.outputAllLocks q s = lockup.RunResult.parseError strconv.NumError.outOfRange) := by
  constructor
  · intro hv
    have hparse := ParseInt_decimal_small s hs hv
    obtain ⟨results, hrun, hlen, hget⟩ :=
      outputAllLocks_written q s (decimalValue s) hparse (Int.natCast_nonneg _) hcoins
    refine ⟨hparse, results, hrun, by simpa using hlen, fun k hk => ?_⟩
    obtain ⟨r, h1, h2⟩ := hget k (by simpa using hk)
    exact ⟨r, h1, lockResult_Id q k r h2⟩
  · intro hv
    have h := ParseInt_decimal_large s hs hv
    simp only [lockup.outputAllLocks, h]

theorem output_all_locks_accepts_below_2_pow_31_witness :
    isDecimal "3".toList = true ∧ decimalValue "3".toList < 2 ^ 31 ∧
    (strconv.ParseInt "3".toList 10 32 = ((decimalValue "3".toList : Int), none) ∧
      ∃ results, lockup.outputAllLocks lockup.sampleClient "3".toList
          = lockup.RunResult.written results ∧
        results.length = decimalValue "3".toList + 1 ∧
        ∀ k : Nat, k ≤ decimalValue "3".toList →
          ∃ r, results[k]? = some r ∧ r.Id = (k : Int)) :=
  ⟨by decide, by decide,
    (output_all_locks_accepts_below_2_pow_31 lockup.sampleClient "3".toList (by decide)
      sampleClient_coins).1 (by decide)⟩

/-! ## `ParseSdkIntFromString` -/

/-- A piece that `ParseUint` accepts at 64 bits: a decimal numeral below `2^64`. -/
theorem ParseUint_64_ok_iff (t : GoString) :
    (strconv.ParseUint t 10 64).2 = none ↔ (isDecimal t = true ∧ decimalValue t < 2 ^ 64) := by
  constructor
  · intro h
    have := ParseUint_ok 64 t h
    rw [maxVal_64] at this
    exact ⟨this.1, by omega⟩
  · rintro ⟨hd, hv⟩
    rw [ParseUint_decimal 64 t hd (by rw [maxVal_64]; omega)]

theorem parseSdkIntLoop_spec (ps : List GoString) :
    ∀ acc : List Int, ∃ k, k ≤ ps.length ∧
      (osmoutils.parseSdkIntLoop ps acc).1
        = acc ++ (ps.take k).map (fun p => (decimalValue (strings.TrimSpace p) : Int)) ∧
      (∀ p ∈ ps.take k, isDecimal (strings.TrimSpace p) = true ∧
        decimalValue (strings.TrimSpace p) < 2 ^ 64) ∧
      ((osmoutils.parseSdkIntLoop ps acc).2 = none ↔ k = ps.length) ∧
      (∀ p, ps[k]? = some p →
        ¬ (isDecimal (strings.TrimSpace p) = true ∧
            decimalValue (strings.TrimSpace p) < 2 ^ 64) ∧
        (isDecimal (strings.TrimSpace p) = true →
          (osmoutils.parseSdkIntLoop ps acc).2 = some strconv.NumError.outOfRange)) := by
  induction ps with
  | nil =>
    intro acc
    exact ⟨0, by simp [osmoutils.parseSdkIntLoop]⟩
  | cons p ps ih =>
    intro acc
    cases hr : (strconv.ParseUint (strings.TrimSpace p) 10 64).2 with
    | some err =>
      have hloop : osmoutils.parseSdkIntLoop (p :: ps) acc = (acc, some err) := by
        simp [osmoutils.parseSdkIntLoop, osmoutils.base, osmoutils.bitlen, hr]
      have hbad : ¬ (isDecimal (strings.TrimSpace p) = true ∧
          decimalValue (strings.TrimSpace p) < 2 ^ 64) := by
        intro h
        rw [(ParseUint_64_ok_iff _).mpr h] at hr
        cases hr
      refine ⟨0, Nat.zero_le _, by simp [hloop], by simp, by simp [hloop], ?_⟩
      intro p2 hp2
      simp only [List.getElem?_cons_zero, Option.some.injEq] at hp2
      subst hp2
      refine ⟨hbad, fun hd => ?_⟩
      have hbig : strconv.maxVal 64 < decimalValue (strings.TrimSpace p) := by
        rw [maxVal_64]
        by_contra hlt
        exact hbad ⟨hd, by omega⟩
      rw [ParseUint_decimal_big 64 _ hd hbig] at hr
      rw [hloop]
      exact hr.symm ▸ rfl
    | none =>
      have hok := (ParseUint_64_ok_iff _).mp hr
      have hval := ParseUint_decimal 64 _ hok.1 (by rw [maxVal_64]; omega)
      have hloop : osmoutils.parseSdkIntLoop (p :: ps) acc
          = osmoutils.parseSdkIntLoop ps
              (acc ++ [(decimalValue (strings.TrimSpace p) : Int)]) := by
        rw [osmoutils.parseSdkIntLoop]
        simp only [osmoutils.base, osmoutils.bitlen, hval]
      obtain ⟨k, hk, h1, h2, h3, h4⟩ :=
        ih (acc ++ [(decimalValue (strings.TrimSpace p) : Int)])
      refine ⟨k + 1, by simpa using hk, ?_, ?_, ?_, ?_⟩
      · rw [hloop, h1]; simp
      · intro q hq
        simp only [List.take_succ_cons, List.mem_cons] at hq
        rcases hq with rfl | hq
        · exact hok
        · exact h2 q hq
      · rw [hloop, h3]; simp
      · intro q hq
        rw [hloop]
        exact h4 q (by simpa using hq)

/-- Runs of `ParseSdkIntFromString`: every piece in range; a piece equal to
`2^64`; a piece that is not a numeral. -/
theorem ParseSdkIntFromString_runs :
    osmoutils.ParseSdkIntFromString "1, 20 ,18446744073709551615".toList ",".toList
      = ([1, 20, 18446744073709551615], none) ∧
    osmoutils.ParseSdkIntFromString "7,18446744073709551616,3".toList ",".toList
      = ([7], some strconv.NumError.outOfRange) ∧
    osmoutils.ParseSdkIntFromString "7;x;3".toList ";".toList
      = ([7], some strconv.NumError.invalidSyntax) := by
  decide

/-- C4: `ParseSdkIntFromString` returns the exact values of the first `k`
whitespace-trimmed pieces, each of them a decimal numeral below `2^64`; it
returns no error exactly when these are all the pieces, and otherwise piece `k`
is not such a numeral. A decimal piece of value `2^64` or more therefore always
makes the call return an error, the range error when it is the first piece
that fails, with only the integers parsed before it: no value is reduced
modulo `2^64`. -/
theorem ParseSdkIntFromString_exact (s separator : GoString) :
    ∃ k, k ≤ (strings.Split s separator).length ∧
      (osmoutils.ParseSdkIntFromString s separator).1
        = ((strings.Split s separator).take k).map
            (fun p => (decimalValue (strings.TrimSpace p) : Int)) ∧
      (∀ p ∈ (strings.Split s separator).take k,
        isDecimal (strings.TrimSpace p) = true ∧
        decimalValue (strings.TrimSpace p) < 2 ^ 64) ∧
      ((osmoutils.ParseSdkIntFromString s separator).2 = none
        ↔ k = (strings.Split s separator).length) ∧
      (∀ p, (strings.Split s separator)[k]? = some p →
        ¬ (isDecimal (strings.TrimSpace p) = true ∧
            decimalValue (strings.TrimSpace p) < 2 ^ 64) ∧
        (isDecimal (strings.TrimSpace p) = true →
          (osmoutils.ParseSdkIntFromString s separator).2
            = some strconv.NumError.outOfRange)) ∧
      (∀ p ∈ strings.Split s separator,
        isDecimal (strings.TrimSpace p) = true →
        2 ^ 64 ≤ decimalValue (strings.TrimSpace p) →
        (osmoutils.ParseSdkIntFromString s separator).2 ≠ none) := by
  obtain ⟨k, hk, h1, h2, h3, h4⟩ := parseSdkIntLoop_spec (strings.Split s separator) []
  refine ⟨k, hk, by simpa [osmoutils.ParseSdkIntFromString] using h1, h2, h3, h4, ?_⟩
  intro p hp hd hbig hnone
  have hkl := h3.mp hnone
  have hall := h2 p (by rw [hkl, List.take_length]; exact hp)
  omega

/-! ## The split of `BeginUnlocking` -/

theorem amountOf_nonneg (l : List lockup.Coin) (d : GoString)
    (h : ∀ c ∈ l, 0 < c.Amount) : 0 ≤ engine.amountOf l d := by
  induction l with
  | nil => simp [engine.amountOf]
  | cons c cs ih =>
    rw [engine.amountOf]
    split
    · exact le_of_lt (h c (List.mem_cons_self _ _))
    · exact ih fun x hx => h x (List.mem_cons_of_mem _ hx)

theorem amountOf_mem (l : List lockup.Coin) (d : GoString) :
    engine.amountOf l d = 0 ∨ ∃ c ∈ l, c.Denom = d ∧ c.Amount = engine.amountOf l d := by
  induction l with
  | nil => left; simp [engine.amountOf]
  | cons c cs ih =>
    rw [engine.amountOf]
    split
    · rename_i hc
      exact Or.inr ⟨c, List.mem_cons_self _ _, hc, rfl⟩
    · rcases ih with h | ⟨x, hx, hxd, hxa⟩
      · exact Or.inl h
      · exact Or.inr ⟨x, List.mem_cons_of_mem _ hx, hxd, hxa⟩

theorem amountOf_reduceCoins_notin (l sub : List lockup.Coin) (d : GoString)
    (h : d ∉ l.map (·.Denom)) : engine.amountOf (engine.reduceCoins l sub) d = 0 := by
  induction l with
  | nil => simp [engine.reduceCoins, engine.amountOf]
  | cons c cs ih =>
    simp only [List.map_cons, List.mem_cons, not_or] at h
    have ih2 := ih h.2
    unfold engine.reduceCoins at ih2 ⊢
    rw [List.filterMap_cons]
    split
    · exact ih2
    · rename_i b hb
      split at hb
      · cases hb
      · cases hb
        rw [engine.amountOf, if_neg (fun hcd => h.1 hcd.symm)]
        exact ih2

theorem amountOf_reduceCoins (l sub : List lockup.Coin) (d : GoString)
    (hnodup : (l.map (·.Denom)).Nodup)
    (hle : engine.amountOf sub d ≤ engine.amountOf l d)
    (hnotin : d ∉ l.map (·.Denom) → engine.amountOf sub d = 0) :
    engine.amountOf l d
      = engine.amountOf (engine.reduceCoins l sub) d + engine.amountOf sub d := by
  induction l with
  | nil =>
    have := hnotin (by simp)
    simp [engine.reduceCoins, engine.amountOf, this]
  | cons c cs ih =>
    simp only [List.map_cons, List.nodup_cons] at hnodup
    by_cases hcd : c.Denom = d
    · have hnot : d ∉ cs.map (·.Denom) := hcd ▸ hnodup.1
      have hrest := amountOf_reduceCoins_notin cs sub d hnot
      rw [engine.amountOf, if_pos hcd] at hle ⊢
      unfold engine.reduceCoins at hrest ⊢
      rw [List.filterMap_cons]
      split
      · rename_i hb
        split at hb
        · rw [hrest]; rw [hcd] at *; omega
        · cases hb
      · rename_i b hb
        split at hb
        · cases hb
        · cases hb
          rw [engine.amountOf, if_pos hcd, hcd]
          ring
    · rw [engine.amountOf, if_neg hcd] at hle ⊢
      have ih2 := ih hnodup.2 hle (fun hn => hnotin (by
        simp only [List.map_cons, List.mem_cons, not_or]
        exact ⟨fun h => hcd h.symm, hn⟩))
      unfold engine.reduceCoins at ih2 ⊢
      rw [List.filterMap_cons]
      split
      · exact ih2
      · rename_i b hb
        split at hb
        · cases hb
        · cases hb
          rw [engine.amountOf, if_neg hcd]
          exact ih2

theorem validCoins_iff (cs : List lockup.Coin) :
    engine.validCoins cs = true ↔
      cs ≠ [] ∧ (∀ c ∈ cs, 0 < c.Amount) ∧ (cs.map (·.Denom)).Nodup := by
  cases cs <;> simp [engine.validCoins, and_assoc]

theorem amountOf_subset_le (held sub : List lockup.Coin) (d : GoString)
    (hheld : ∀ c ∈ held, 0 < c.Amount)
    (hcover : engine.coversSubset held sub = true) :
    engine.amountOf sub d ≤ engine.amountOf held d := by
  rcases amountOf_mem sub d with h | ⟨c, hc, hcd, hca⟩
  · rw [h]; exact amountOf_nonneg held d hheld
  · simp only [engine.coversSubset, List.all_eq_true, decide_eq_true_eq] at hcover
    have := hcover c hc
    rw [hcd] at this
    omega

theorem amountOf_subset_notin (held sub : List lockup.Coin) (d : GoString)
    (hsub : ∀ c ∈ sub, 0 < c.Amount)
    (hcover : engine.coversSubset held sub = true)
    (hnotin : d ∉ held.map (·.Denom)) : engine.amountOf sub d = 0 := by
  rcases amountOf_mem sub d with h | ⟨c, hc, hcd, hca⟩
  · exact h
  · exfalso
    simp only [engine.coversSubset, List.all_eq_true, decide_eq_true_eq] at hcover
    have h1 := hcover c hc
    have h2 := hsub c hc
    rcases amountOf_mem held c.Denom with h0 | ⟨x, hx, hxd, _⟩
    · omega
    · exact hnotin (by rw [← hcd, ← hxd]; exact List.mem_map_of_mem _ hx)

theorem find_replace (locks : List engine.Lock) (lockID : Nat) (lock x : engine.Lock)
    (hx : x.ID = lockID)
    (h : locks.find? (fun l => l.ID = lockID) = some lock) :
    (locks.map fun l => if l.ID = lockID then x else l).find? (fun l => l.ID = lockID)
      = some x := by
  induction locks with
  | nil => simp at h
  | cons l ls ih =>
    by_cases hl : l.ID = lockID
    · simp [List.find?, hl, hx]
    · have h2 : ls.find? (fun l => l.ID = lockID) = some lock := by
        simpa [List.find?, hl] using h
      simp [List.find?, hl, ih h2]

theorem find_fresh (locks : List engine.Lock) (lockID nextID : Nat) (x : engine.Lock)
    (hx : x.ID < nextID) (hids : ∀ l ∈ locks, l.ID < nextID) :
    (locks.map fun l => if l.ID = lockID then x else l).find? (fun l => l.ID = nextID)
      = none := by
  rw [List.find?_eq_none]
  intro y hy
  simp only [List.mem_map] at hy
  obtain ⟨l, hl, rfl⟩ := hy
  have := hids l hl
  split <;> simp <;> omega

theorem find_some_ID (locks : List engine.Lock) (lockID : Nat) (lock : engine.Lock)
    (h : locks.find? (fun l => l.ID = lockID) = some lock) :
    lock.ID = lockID ∧ lock ∈ locks := by
  have h1 := List.find?_some h
  exact ⟨by simpa using h1, List.mem_of_find?_eq_some h⟩

/-- C8: `BeginUnlocking` on a Bonded lock of a well-formed store with a valid
(non-empty) coin subset that the lock covers and that is not its full set
succeeds and yields two locks: the original under the same ID, still Bonded,
and a new Unlocking lock with a fresh ID, the same owner and duration, holding
exactly the subset. For every denom the original amount is the remaining
amount plus the amount of the new lock. -/
theorem BeginUnlocking_split_partitions (store : engine.LockStore) (now lockID : Nat)
    (lock : engine.Lock) (sub : List lockup.Coin)
    (hget : store.get lockID = some lock)
    (hids : ∀ l ∈ store.locks, l.ID < store.nextID)
    (hbonded : lock.status = engine.Status.Bonded)
    (hlock : engine.validCoins lock.coins = true)
    (hsub : engine.validCoins sub = true)
    (hcover : engine.coversSubset lock.coins sub = true)
    (hstrict : engine.isFullSet lock.coins sub = false) :
    ∃ store2 newID remaining newLock,
      engine.BeginUnlocking store now lockID (some sub) = Except.ok (store2, some newID) ∧
      newID ≠ lockID ∧
      store2.get lockID = some remaining ∧
      store2.get newID = some newLock ∧
      remaining.ID = lockID ∧ remaining.status = engine.Status.Bonded ∧
      remaining.owner = lock.owner ∧ remaining.duration = lock.duration ∧
      remaining.endTime = lock.endTime ∧
      newLock.status = engine.Status.Unlocking ∧ newLock.coins = sub ∧
      newLock.owner = lock.owner ∧ newLock.duration = lock.duration ∧
      newLock.endTime = some (now + lock.duration) ∧
      ∀ d, engine.amountOf lock.coins d
        = engine.amountOf remaining.coins d + engine.amountOf newLock.coins d := by
  obtain ⟨hID, hmem⟩ := find_some_ID store.locks lockID lock hget
  have hlt : lockID < store.nextID := hID ▸ hids lock hmem
  obtain ⟨_, hlpos, hlnodup⟩ := (validCoins_iff lock.coins).mp hlock
  obtain ⟨_, hspos, _⟩ := (validCoins_iff sub).mp hsub
  refine ⟨{ locks := (store.set lockID
                { lock with coins := engine.reduceCoins lock.coins sub }).locks ++
              [{ ID := store.nextID, owner := lock.owner, coins := sub,
                 duration := lock.duration, endTime := some (now + lock.duration),
                 status := engine.Status.Unlocking }],
            nextID := store.nextID + 1 },
    store.nextID, { lock with coins := engine.reduceCoins lock.coins sub },
    { ID := store.nextID, owner := lock.owner, coins := sub, duration := lock.duration,
      endTime := some (now + lock.duration), status := engine.Status.Unlocking },
    ?_, by omega, ?_, ?_, hID, hbonded, rfl, rfl, rfl, rfl, rfl, rfl, rfl, rfl, ?_⟩
  · simp only [engine.BeginUnlocking, hget, hbonded, hsub, hcover, hstrict]
    simp
  · simp only [engine.LockStore.get, engine.LockStore.set]
    rw [List.find?_append, find_replace store.locks lockID lock
      { lock with coins := engine.reduceCoins lock.coins sub } hID hget]
    rfl
  · simp only [engine.LockStore.get, engine.LockStore.set]
    rw [List.find?_append, find_fresh store.locks lockID store.nextID
      { lock with coins := engine.reduceCoins lock.coins sub }
      (by simpa [hID] using hlt) hids]
    simp
  · intro d
    exact amountOf_reduceCoins lock.coins sub d hlnodup
      (amountOf_subset_le lock.coins sub d hlpos hcover)
      (amountOf_subset_notin lock.coins sub d hspos hcover)

theorem BeginUnlocking_split_partitions_witness :
    engine.sampleStore.get 1 = some engine.sampleLock ∧
    engine.sampleLock.status = engine.Status.Bonded ∧
    engine.validCoins engine.sampleSubset = true ∧
    engine.coversSubset engine.sampleLock.coins engine.sampleSubset = true ∧
    engine.isFullSet engine.sampleLock.coins engine.sampleSubset = false ∧
    ∃ store2 newID remaining newLock,
      engine.BeginUnlocking engine.sampleStore 1000 1 (some engine.sampleSubset)
        = Except.ok (store2, some newID) ∧
      newID ≠ 1 ∧
      store2.get 1 = some remaining ∧
      store2.get newID = some newLock ∧
      remaining.ID = 1 ∧ remaining.status = engine.Status.Bonded ∧
      remaining.owner = engine.sampleLock.owner ∧
      remaining.duration = engine.sampleLock.duration ∧
      remaining.endTime = engine.sampleLock.endTime ∧
      newLock.status = engine.Status.Unlocking ∧ newLock.coins = engine.sampleSubset ∧
      newLock.owner = engine.sampleLock.owner ∧
      newLock.duration = engine.sampleLock.duration ∧
      newLock.endTime = some (1000 + engine.sampleLock.duration) ∧
      ∀ d, engine.amountOf engine.sampleLock.coins d
        = engine.amountOf remaining.coins d + engine.amountOf newLock.coins d :=
  ⟨by decide, by decide, by decide, by decide, by decide,
    BeginUnlocking_split_partitions engine.sampleStore 1000 1 engine.sampleLock
      engine.sampleSubset (by decide) (by decide) (by decide) (by decide) (by decide)
      (by decide) (by decide)⟩

end Osmosis
